import Mathlib

/-!
Verification of the chunk-and-reduce summarization core of the
YouTube-video-summarizer application (`src/app.py`).

The embedding models Python strings as `List Char` (`PyStr`); `len` is
`List.length` (both count code points).  Whitespace (`str.split()`,
`str.strip()`, the regex class `\s`) is modelled by the six ASCII
whitespace characters Python recognises there.

Embedded functions, each translated from `src/app.py`:
  - `chunk_text`              (lines 100-122, the Chunk Partitioner),
  - `clean_autogen_transcript`(lines 18-34, the Caption Normalizer),
  - `get_video_transcript`    (lines 89-95, the length gate applied to the
                               cleaned transcript; the yt-dlp download that
                               produces `raw_text` is an external collaborator
                               and is taken as the function's input),
  - `summarize_with_groq`     (lines 124-202, the Summarization Orchestrator).

The remote completion endpoint is abstracted as a capability
`Cap : Nat → PyStr → Except PyStr PyStr` mapping (index of the call in the
request, prompt) to the model's answer or a transport error.  The
orchestrator returns its Python result together with the trace of prompts
it sent, in order, so that call-count and call-order properties are
statements about the returned trace.
-/

/-- Python strings, as lists of unicode code points. -/
abbrev PyStr := List Char

/-- The ASCII whitespace characters of Python's `str.split()` / `str.strip()`
and of the regex class `\s`. -/
def isPySpace (c : Char) : Bool :=
  c == ' ' || c == '\t' || c == '\n' || c == '\r' || c == '\x0b' || c == '\x0c'

/-- Words emitted before position `acc ++ s`: `acc` is the (possibly empty)
word being read when the scan reached `s`.  Models Python's `text.split()`:
maximal runs of non-whitespace, empty runs dropped. -/
def splitWAux : PyStr → PyStr → List PyStr
  | [], acc => if acc.isEmpty then [] else [acc]
  | c :: rest, acc =>
    if isPySpace c then
      (if acc.isEmpty then [] else [acc]) ++ splitWAux rest []
    else
      splitWAux rest (acc ++ [c])

/-- `text.split()`. -/
def pySplit (s : PyStr) : List PyStr := splitWAux s []

/-- `" ".join(words)`. -/
def joinSp : List PyStr → PyStr
  | [] => []
  | [w] => w
  | w :: ws => w ++ ' ' :: joinSp ws

/-- `"\n\n".join(parts)`. -/
def joinBlank : List PyStr → PyStr
  | [] => []
  | [w] => w
  | w :: ws => w ++ '\n' :: '\n' :: joinBlank ws

/-- The loop of `chunk_text` (src/app.py lines 109-120): greedily pack
words into `cur` (the Python `current_chunk`), closing a chunk when the
next word (plus one separator character) would push `curLen`
(`current_length`) past `maxChars` and the chunk is non-empty. -/
def chunkGo (maxChars : Nat) : List PyStr → List PyStr → Nat → List PyStr
  | [], cur, _ => if cur.isEmpty then [] else [joinSp cur]
  | w :: ws, cur, curLen =>
    if maxChars < curLen + (w.length + 1) ∧ cur ≠ [] then
      joinSp cur :: chunkGo maxChars ws [w] (w.length + 1)
    else
      chunkGo maxChars ws (cur ++ [w]) (curLen + (w.length + 1))

/-- `chunk_text` (src/app.py lines 100-122): split on whitespace, then pack
greedily into chunks of at most `maxChars` characters. -/
def chunk_text (text : PyStr) (maxChars : Nat) : List PyStr :=
  chunkGo maxChars (pySplit text) [] 0

/-- A word list is good when every word is non-empty and whitespace-free —
what `text.split()` produces. -/
def GoodWords (ws : List PyStr) : Prop :=
  ∀ w ∈ ws, w ≠ [] ∧ ∀ c ∈ w, isPySpace c = false

/-- Sum of word lengths plus one separator slot per word — the exact
quantity `current_length` tracks in `chunk_text`. -/
def sumLen (cur : List PyStr) : Nat := (cur.map (fun w => w.length + 1)).sum

/-- After a `<`, try to read the rest of a caption tag (`/c>` or `c>`);
on success return the input after the closing `>`. -/
def tagTail : PyStr → Option PyStr
  | '/' :: 'c' :: '>' :: rest => some rest
  | 'c' :: '>' :: rest => some rest
  | _ => none

/-- First pass of `clean_autogen_transcript`: literal re-sub of the
caption-tag pattern with the empty string, fuelled so that the recursion
is structural.  The scan is left to right; at each position a match of
the open or close tag is removed and the scan resumes after it,
otherwise one character is kept.  Each step consumes at least one
character, so fuel equal to the input length is adequate. -/
def stripTagsF : Nat → PyStr → PyStr
  | 0, s => s
  | _ + 1, [] => []
  | fuel + 1, c :: rest =>
    if c = '<' then
      match tagTail rest with
      | some rest2 => stripTagsF fuel rest2
      | none => c :: stripTagsF fuel rest
    else c :: stripTagsF fuel rest

def stripTags (s : PyStr) : PyStr := stripTagsF s.length s

/-- Whether the timestamp pattern `<dd:dd:dd.ddd>` matches at the head. -/
def tsHead (a b c d e f g h i : Char) : Bool :=
  a.isDigit && b.isDigit && c.isDigit && d.isDigit && e.isDigit &&
    f.isDigit && g.isDigit && h.isDigit && i.isDigit

/-- After a `<`, try to read `dd:dd:dd.ddd>`; on success return the rest of
the input after the closing `>`. -/
def tsTail : PyStr → Option PyStr
  | a :: b :: ':' :: c :: d :: ':' :: e :: f :: '.' :: g :: h :: i :: '>' :: rest2 =>
    if tsHead a b c d e f g h i then some rest2 else none
  | _ => none

/-- Second pass of `clean_autogen_transcript`, fuelled so that the
recursion is structural: remove embedded timestamp markers matching
`<\d\d:\d\d:\d\d\.\d\d\d>`, scanning left to right.  Each step consumes
at least one character, so fuel equal to the input length is adequate. -/
def stripTsF : Nat → PyStr → PyStr
  | 0, s => s
  | _ + 1, [] => []
  | fuel + 1, c :: rest =>
    if c = '<' then
      match tsTail rest with
      | some rest2 => stripTsF fuel rest2
      | none => c :: stripTsF fuel rest
    else c :: stripTsF fuel rest

def stripTs (s : PyStr) : PyStr := stripTsF s.length s

/-- Third pass: re-sub of `\s+` with a single space — every maximal run of
whitespace becomes one `' '`. -/
def collapseWs : PyStr → PyStr
  | [] => []
  | [c] => if isPySpace c then [' '] else [c]
  | c1 :: c2 :: rest =>
    if isPySpace c1 ∧ isPySpace c2 then collapseWs (c2 :: rest)
    else (if isPySpace c1 then ' ' else c1) :: collapseWs (c2 :: rest)

/-- Python's `str.strip()`: drop leading and trailing whitespace. -/
def pyStrip (s : PyStr) : PyStr :=
  (((s.dropWhile isPySpace).reverse.dropWhile isPySpace)).reverse

/-- `clean_autogen_transcript` (src/app.py lines 18-34): remove caption
tags, remove timestamps, collapse whitespace runs and strip. -/
def clean_autogen_transcript (text : PyStr) : PyStr :=
  pyStrip (collapseWs (stripTs (stripTags text)))

/-- The non-adjacency relation of a collapsed string: no two neighbouring
whitespace characters. -/
def noWsPair (a b : Char) : Prop := isPySpace a = false ∨ isPySpace b = false

/-- A string is collapsed when no two adjacent characters are whitespace
and every whitespace character is the plain space — the shape `collapseWs`
produces. -/
def Collapsed (s : PyStr) : Prop :=
  List.Chain' noWsPair s ∧ ∀ c ∈ s, isPySpace c = true → c = ' '

/-- The transcript acquisition gate of `get_video_transcript`
(src/app.py lines 89-95): the raw caption payload produced by the
external downloader is cleaned, then rejected when empty or shorter than
50 characters after stripping.  The surfaced error message carries the
wrapper prefix of line 98. -/
def get_video_transcript (raw_text : PyStr) : Except PyStr PyStr :=
  let clean_text := clean_autogen_transcript raw_text
  if clean_text = [] ∨ (pyStrip clean_text).length < 50 then
    Except.error "Could not retrieve transcript: Extracted transcript is too short or empty".data
  else
    Except.ok clean_text

/-- Errors of the Orchestrator (raised `Exception`s of
`summarize_with_groq`): a map-phase failure carrying the 1-based index of
the failing chunk, or a direct-path failure. -/
inductive SummErr where
  | chunkError (idx : Nat) (msg : PyStr)
  | generalError (msg : PyStr)
deriving DecidableEq

/-- The external completion capability: from (index of the call within
the request, prompt) to the model's answer or a transport error. -/
abbrev Cap := Nat → PyStr → Except PyStr PyStr

/-- The style-agnostic map prompt of src/app.py line 137. -/
def chunkPrompt (chunk : PyStr) : PyStr :=
  "Please provide a concise summary of this part of a video transcript:\n\n".data ++ chunk

/-- The `prompts` dictionary of the short path (src/app.py lines 182-187);
`none` models a `KeyError` on lookup. -/
def prompts (summary_type text : PyStr) : Option PyStr :=
  if summary_type = "general".data then
    some ("Please provide a clear and concise summary of the following video transcript:\n\n".data ++ text)
  else if summary_type = "detailed".data then
    some ("Please provide a detailed summary with key points and main topics from the following video transcript:\n\n".data ++ text)
  else if summary_type = "bullet_points".data then
    some ("Please summarize the following video transcript in bullet points, highlighting the main topics:\n\n".data ++ text)
  else if summary_type = "key_takeaways".data then
    some ("Please extract the key takeaways and main insights from the following video transcript:\n\n".data ++ text)
  else none

/-- The `final_prompts` dictionary of the reduce step (src/app.py lines
157-162); `none` models a `KeyError` on lookup. -/
def final_prompts (summary_type combined_summary : PyStr) : Option PyStr :=
  if summary_type = "general".data then
    some ("Please create a cohesive summary from these section summaries of a video:\n\n".data ++ combined_summary)
  else if summary_type = "detailed".data then
    some ("Please create a detailed, well-structured summary from these section summaries:\n\n".data ++ combined_summary)
  else if summary_type = "bullet_points".data then
    some ("Please organize these section summaries into clear bullet points:\n\n".data ++ combined_summary)
  else if summary_type = "key_takeaways".data then
    some ("Please extract the main insights and key takeaways from these summaries:\n\n".data ++ combined_summary)
  else none

/-- The closed set of summary styles offered by the UI. -/
def styleList : List PyStr :=
  ["general".data, "detailed".data, "bullet_points".data, "key_takeaways".data]

/-- The map phase of `summarize_with_groq` (src/app.py lines 134-151):
summarize each chunk in order through the capability, starting at call
index `i`; stop at the first failure with the 1-based chunk index.
Returns the Python result together with the trace of prompts sent. -/
def mapPhase (cap : Cap) : List PyStr → Nat → Except SummErr (List PyStr) × List PyStr
  | [], _ => (Except.ok [], [])
  | chunk :: rest, i =>
    match cap i (chunkPrompt chunk) with
    | Except.error e => (Except.error (SummErr.chunkError (i + 1) e), [chunkPrompt chunk])
    | Except.ok s =>
      ((mapPhase cap rest (i + 1)).1.map (fun l => s :: l),
        chunkPrompt chunk :: (mapPhase cap rest (i + 1)).2)

/-- `summarize_with_groq` (src/app.py lines 124-202), with the remote
client abstracted as `cap` and the trace of issued prompts returned
alongside the result.  Oversized texts (length > 3000) go through the
map-reduce path with chunk size 2500; a reduce-phase failure (including a
`KeyError` on an unknown style, raised inside the same `try`) degrades to
the combined chunk summaries; the short path sends one style-specific
prompt and propagates any failure as an error. -/
def summarize_with_groq (cap : Cap) (text summary_type : PyStr) :
    Except SummErr PyStr × List PyStr :=
  if 3000 < text.length then
    match (mapPhase cap (chunk_text text 2500) 0).1 with
    | Except.error e => (Except.error e, (mapPhase cap (chunk_text text 2500) 0).2)
    | Except.ok chunk_summaries =>
      match final_prompts summary_type (joinBlank chunk_summaries) with
      | none =>
        (Except.ok (joinBlank chunk_summaries), (mapPhase cap (chunk_text text 2500) 0).2)
      | some fp =>
        match cap (chunk_text text 2500).length fp with
        | Except.ok r =>
          (Except.ok r, (mapPhase cap (chunk_text text 2500) 0).2 ++ [fp])
        | Except.error _ =>
          (Except.ok (joinBlank chunk_summaries),
            (mapPhase cap (chunk_text text 2500) 0).2 ++ [fp])
  else
    match prompts summary_type text with
    | none =>
      (Except.error (SummErr.generalError
        ("Error generating summary: '".data ++ summary_type ++ "'".data)), [])
    | some pr =>
      match cap 0 pr with
      | Except.ok r => (Except.ok r, [pr])
      | Except.error e =>
        (Except.error (SummErr.generalError ("Error generating summary: ".data ++ e)), [pr])

/-- The Partial Summaries an always-succeeding capability `resp` would
produce for the given chunks, starting at call index `i`. -/
def mapResp (resp : Nat → PyStr → PyStr) : List PyStr → Nat → List PyStr
  | [], _ => []
  | chunk :: rest, i => resp i (chunkPrompt chunk) :: mapResp resp rest (i + 1)

theorem goodWords_nil : GoodWords [] := by intro w hw; cases hw

theorem goodWords_append {xs ys : List PyStr} (hx : GoodWords xs) (hy : GoodWords ys) :
    GoodWords (xs ++ ys) := by
  intro w hw
  rcases List.mem_append.mp hw with h | h
  · exact hx w h
  · exact hy w h

theorem goodWords_singleton {w : PyStr} (hne : w ≠ [])
    (hns : ∀ c ∈ w, isPySpace c = false) : GoodWords [w] := by
  intro x hx
  rcases List.mem_singleton.mp hx with rfl
  exact ⟨hne, hns⟩

/-- Splitting distributes over a space: the words of `s ++ ' ' :: t` are the
words of `s` followed by the words of `t`. -/
theorem splitWAux_append_space (t : PyStr) :
    ∀ (s acc : PyStr),
      splitWAux (s ++ ' ' :: t) acc = splitWAux s acc ++ splitWAux t [] := by
  intro s
  induction s with
  | nil =>
    intro acc
    simp [splitWAux, isPySpace]
  | cons c s ih =>
    intro acc
    by_cases hc : isPySpace c
    · simp only [List.cons_append, splitWAux, hc, if_true, List.append_assoc,
        List.append_eq]
      rw [ih []]
    · simp only [List.cons_append, splitWAux, hc, Bool.false_eq_true, if_false]
      exact ih (acc ++ [c])

/-- Splitting a single whitespace-free word: the pending `acc` is extended
by the whole word and emitted. -/
theorem splitWAux_word :
    ∀ (w acc : PyStr), (∀ c ∈ w, isPySpace c = false) →
      splitWAux w acc = if (acc ++ w).isEmpty then [] else [acc ++ w] := by
  intro w
  induction w with
  | nil => intro acc _; simp [splitWAux]
  | cons c w ih =>
    intro acc hns
    have hc : isPySpace c = false := hns c (List.mem_cons_self c w)
    simp only [splitWAux, hc, Bool.false_eq_true, if_false,
      ih (acc ++ [c]) (fun x hx => hns x (List.mem_cons_of_mem c hx)),
      List.append_assoc, List.singleton_append]

/-- The words produced by the splitter are good. -/
theorem splitWAux_good :
    ∀ (s acc : PyStr), (acc ≠ [] → ∀ c ∈ acc, isPySpace c = false) →
      GoodWords (splitWAux s acc) := by
  intro s
  induction s with
  | nil =>
    intro acc hacc
    simp only [splitWAux]
    by_cases h : acc.isEmpty
    · simp [h, goodWords_nil]
    · have hne : acc ≠ [] := by
        intro hEq; rw [hEq] at h; simp at h
      simp only [h, if_false]
      exact goodWords_singleton hne (hacc hne)
  | cons c s ih =>
    intro acc hacc
    by_cases hc : isPySpace c
    · simp only [splitWAux, hc, if_true]
      apply goodWords_append
      · by_cases h : acc.isEmpty
        · simp [h, goodWords_nil]
        · have hne : acc ≠ [] := by
            intro hEq; rw [hEq] at h; simp at h
          simp only [h, if_false]
          exact goodWords_singleton hne (hacc hne)
      · exact ih [] (by intro h; exact absurd rfl h)
    · simp only [splitWAux, hc, Bool.false_eq_true, if_false]
      apply ih
      intro _ x hx
      rcases List.mem_append.mp hx with h | h
      · rcases List.eq_nil_or_concat acc with rfl | _
        · cases h
        · exact hacc (by rintro rfl; cases h) x h
      · rcases List.mem_singleton.mp h with rfl
        simpa using hc

theorem goodWords_pySplit (s : PyStr) : GoodWords (pySplit s) :=
  splitWAux_good s [] (fun h => absurd rfl h)

/-- Splitting an interleaving with spaces is the concatenation of the
splits of the pieces. -/
theorem pySplit_joinSp : ∀ xs : List PyStr, pySplit (joinSp xs) = xs.flatMap pySplit := by
  intro xs
  induction xs with
  | nil => rfl
  | cons x xs ih =>
    cases xs with
    | nil => simp [joinSp, List.flatMap]
    | cons y ys =>
      have : joinSp (x :: y :: ys) = x ++ ' ' :: joinSp (y :: ys) := rfl
      rw [this]
      show splitWAux (x ++ ' ' :: joinSp (y :: ys)) [] = _
      rw [splitWAux_append_space (joinSp (y :: ys)) x []]
      rw [show splitWAux (joinSp (y :: ys)) [] = pySplit (joinSp (y :: ys)) from rfl, ih]
      simp [pySplit, List.flatMap]

/-- A good word splits to itself. -/
theorem pySplit_word {w : PyStr} (hne : w ≠ []) (hns : ∀ c ∈ w, isPySpace c = false) :
    pySplit w = [w] := by
  show splitWAux w [] = [w]
  rw [splitWAux_word w [] hns]
  simp [List.isEmpty_iff, hne]

/-- Joining good words with spaces and re-splitting restores the words. -/
theorem pySplit_joinSp_good {xs : List PyStr} (h : GoodWords xs) :
    pySplit (joinSp xs) = xs := by
  rw [pySplit_joinSp]
  induction xs with
  | nil => rfl
  | cons x xs ih =>
    have hx := h x (List.mem_cons_self x xs)
    rw [List.flatMap_cons, pySplit_word hx.1 hx.2,
      ih (fun w hw => h w (List.mem_cons_of_mem x hw))]
    rfl

/-- Coverage of the packing loop: flattening the words of the produced
chunks restores the pending chunk followed by the remaining words. -/
theorem chunkGo_flatMap (maxChars : Nat) :
    ∀ (ws cur : List PyStr) (n : Nat), GoodWords ws → GoodWords cur →
      (chunkGo maxChars ws cur n).flatMap pySplit = cur ++ ws := by
  intro ws
  induction ws with
  | nil =>
    intro cur n _ hcur
    show (if cur.isEmpty then [] else [joinSp cur]).flatMap pySplit = cur ++ []
    by_cases h : cur.isEmpty = true
    · have : cur = [] := List.isEmpty_iff.mp h
      rw [if_pos h, this]
      rfl
    · rw [if_neg h, List.append_nil]
      simp only [List.flatMap_cons, List.flatMap_nil, List.append_nil]
      exact pySplit_joinSp_good hcur
  | cons w ws ih =>
    intro cur n hws hcur
    have hw := hws w (List.mem_cons_self w ws)
    have hws' : GoodWords ws := fun x hx => hws x (List.mem_cons_of_mem w hx)
    show (if maxChars < n + (w.length + 1) ∧ cur ≠ [] then
        joinSp cur :: chunkGo maxChars ws [w] (w.length + 1)
      else chunkGo maxChars ws (cur ++ [w]) (n + (w.length + 1))).flatMap pySplit
      = cur ++ w :: ws
    by_cases h : maxChars < n + (w.length + 1) ∧ cur ≠ []
    · rw [if_pos h]
      simp only [List.flatMap_cons]
      rw [pySplit_joinSp_good hcur,
        ih [w] (w.length + 1) hws' (goodWords_singleton hw.1 hw.2)]
      simp
    · rw [if_neg h]
      rw [ih (cur ++ [w]) (n + (w.length + 1)) hws'
        (goodWords_append hcur (goodWords_singleton hw.1 hw.2))]
      simp

theorem sumLen_append (cur : List PyStr) (w : PyStr) :
    sumLen (cur ++ [w]) = sumLen cur + (w.length + 1) := by
  simp [sumLen]

/-- The length of a space-join is one less than `sumLen`. -/
theorem joinSp_length : ∀ (cur : List PyStr), cur ≠ [] →
    (joinSp cur).length + 1 = sumLen cur := by
  intro cur
  induction cur with
  | nil => intro h; exact absurd rfl h
  | cons w ws ih =>
    intro _
    cases ws with
    | nil => simp [joinSp, sumLen]
    | cons x xs =>
      have hstep : joinSp (w :: x :: xs) = w ++ ' ' :: joinSp (x :: xs) := rfl
      rw [hstep]
      have hx := ih (by intro h; cases h)
      simp only [List.length_append, List.length_cons, sumLen, List.map_cons,
        List.sum_cons] at *
      omega

/-- An emitted chunk `joinSp cur` is lawful: non-empty, and within the
bound unless it is a lone oversized word. -/
theorem joinSp_chunk_ok (maxChars : Nat) {cur : List PyStr}
    (hcur : GoodWords cur) (hne : cur ≠ [])
    (hinv : sumLen cur ≤ maxChars ∨ ∃ w, cur = [w]) :
    joinSp cur ≠ [] ∧ ((joinSp cur).length ≤ maxChars ∨
      (pySplit (joinSp cur) = [joinSp cur] ∧ maxChars < (joinSp cur).length)) := by
  have hlen := joinSp_length cur hne
  constructor
  · intro hnil
    rcases cur with _ | ⟨v, rest⟩
    · exact hne rfl
    · have hv := (hcur v (List.mem_cons_self v rest)).1
      have h1 : 1 ≤ v.length := by
        cases v with
        | nil => exact absurd rfl hv
        | cons a as => simp
      have h2 : 2 ≤ sumLen (v :: rest) := by
        simp only [sumLen, List.map_cons, List.sum_cons]; omega
      rw [hnil] at hlen
      simp only [List.length_nil] at hlen
      omega
  · by_cases hle : (joinSp cur).length ≤ maxChars
    · exact Or.inl hle
    · right
      rcases hinv with hinv | ⟨w, rfl⟩
      · omega
      · have hw := hcur w (List.mem_cons_self w [])
        have hjw : joinSp [w] = w := rfl
        rw [hjw]
        rw [hjw] at hle
        exact ⟨pySplit_word hw.1 hw.2, by omega⟩

/-- Bound invariant of the packing loop: every emitted chunk is non-empty,
and fits in `maxChars` unless it is a single word longer than `maxChars`. -/
theorem chunkGo_bound (maxChars : Nat) :
    ∀ (ws cur : List PyStr) (n : Nat), GoodWords ws → GoodWords cur →
      n = sumLen cur → (sumLen cur ≤ maxChars ∨ ∃ w, cur = [w]) →
      ∀ chunk ∈ chunkGo maxChars ws cur n, chunk ≠ [] ∧
        (chunk.length ≤ maxChars ∨ (pySplit chunk = [chunk] ∧ maxChars < chunk.length)) := by
  intro ws
  induction ws with
  | nil =>
    intro cur n _ hcur hn hinv chunk hchunk
    rw [show chunkGo maxChars [] cur n = if cur.isEmpty then [] else [joinSp cur] from rfl]
      at hchunk
    by_cases h : cur.isEmpty = true
    · rw [if_pos h] at hchunk
      cases hchunk
    · rw [if_neg h] at hchunk
      have hne : cur ≠ [] := by intro hEq; rw [hEq] at h; simp at h
      rcases List.mem_singleton.mp hchunk with rfl
      exact joinSp_chunk_ok maxChars hcur hne hinv
  | cons w ws ih =>
    intro cur n hws hcur hn hinv chunk hchunk
    have hw := hws w (List.mem_cons_self w ws)
    have hws' : GoodWords ws := fun x hx => hws x (List.mem_cons_of_mem w hx)
    rw [show chunkGo maxChars (w :: ws) cur n =
        (if maxChars < n + (w.length + 1) ∧ cur ≠ [] then
          joinSp cur :: chunkGo maxChars ws [w] (w.length + 1)
        else chunkGo maxChars ws (cur ++ [w]) (n + (w.length + 1))) from rfl] at hchunk
    by_cases h : maxChars < n + (w.length + 1) ∧ cur ≠ []
    · rw [if_pos h] at hchunk
      rcases List.mem_cons.mp hchunk with rfl | hchunk
      · exact joinSp_chunk_ok maxChars hcur h.2 hinv
      · exact ih [w] (w.length + 1) hws' (goodWords_singleton hw.1 hw.2)
          (by simp [sumLen]) (Or.inr ⟨w, rfl⟩) chunk hchunk
    · rw [if_neg h] at hchunk
      have hn' : n + (w.length + 1) = sumLen (cur ++ [w]) := by
        rw [sumLen_append]; omega
      have hinv' : sumLen (cur ++ [w]) ≤ maxChars ∨ ∃ v, cur ++ [w] = [v] := by
        rcases Decidable.not_and_iff_or_not.mp h with h' | h'
        · left; rw [sumLen_append, ← hn]; omega
        · right
          have hc : cur = [] := Decidable.not_not.mp h'
          exact ⟨w, by rw [hc]; rfl⟩
      exact ih (cur ++ [w]) (n + (w.length + 1)) hws'
        (goodWords_append hcur (goodWords_singleton hw.1 hw.2)) hn' hinv' chunk hchunk

/-- Claim C5: for every input text and every maxChars > 0, concatenating the
segments produced by `chunk_text` with single spaces reproduces the original
whitespace-tokenized word sequence of the input exactly — no word lost, no
word duplicated, original order preserved. -/
theorem chunk_text_coverage (text : PyStr) (maxChars : Nat) (hpos : 0 < maxChars) :
    pySplit (joinSp (chunk_text text maxChars)) = pySplit text := by
  rw [pySplit_joinSp]
  exact chunkGo_flatMap maxChars (pySplit text) [] 0 (goodWords_pySplit text) goodWords_nil

theorem chunk_text_coverage_witness :
    0 < 2 ∧ pySplit (joinSp (chunk_text "one two three".data 2)) = pySplit "one two three".data :=
  ⟨by decide, chunk_text_coverage "one two three".data 2 (by decide)⟩

/-- Claim C6: for every input text and every maxChars > 0, every segment of
`chunk_text` is non-empty and has length at most maxChars, except that a
segment consisting of a single word longer than maxChars may exceed the
bound; and every word of the input belongs to exactly one segment (the
segments' word sequences concatenate to the input's word sequence). -/
theorem chunk_text_bound (text : PyStr) (maxChars : Nat) (hpos : 0 < maxChars) :
    (∀ chunk ∈ chunk_text text maxChars, chunk ≠ [] ∧
      (chunk.length ≤ maxChars ∨ (pySplit chunk = [chunk] ∧ maxChars < chunk.length))) ∧
    (chunk_text text maxChars).flatMap pySplit = pySplit text := by
  constructor
  · exact chunkGo_bound maxChars (pySplit text) [] 0 (goodWords_pySplit text)
      goodWords_nil rfl (Or.inl (Nat.zero_le _))
  · exact chunkGo_flatMap maxChars (pySplit text) [] 0 (goodWords_pySplit text) goodWords_nil

theorem chunk_text_bound_witness :
    0 < 3 ∧
    ((∀ chunk ∈ chunk_text "abcdef gh".data 3, chunk ≠ [] ∧
        (chunk.length ≤ 3 ∨ (pySplit chunk = [chunk] ∧ 3 < chunk.length))) ∧
      (chunk_text "abcdef gh".data 3).flatMap pySplit = pySplit "abcdef gh".data) :=
  ⟨by decide, chunk_text_bound "abcdef gh".data 3 (by decide)⟩

/-- Tag removal does nothing to a string with no `<`, at any fuel. -/
theorem stripTagsF_of_no_lt : ∀ (fuel : Nat) (s : PyStr), '<' ∉ s → stripTagsF fuel s = s := by
  intro fuel
  induction fuel with
  | zero => intro s _; rfl
  | succ fuel ih =>
    intro s h
    cases s with
    | nil => rfl
    | cons c rest =>
      have hc : c ≠ '<' := by
        intro hEq; exact h (hEq ▸ List.mem_cons_self c rest)
      have hrest : '<' ∉ rest := fun hx => h (List.mem_cons_of_mem c hx)
      show (if c = '<' then _ else c :: stripTagsF fuel rest) = c :: rest
      rw [if_neg hc, ih rest hrest]

theorem stripTags_of_no_lt (s : PyStr) (h : '<' ∉ s) : stripTags s = s :=
  stripTagsF_of_no_lt s.length s h

/-- Timestamp removal does nothing to a string with no `<`, at any fuel. -/
theorem stripTsF_of_no_lt : ∀ (fuel : Nat) (s : PyStr), '<' ∉ s → stripTsF fuel s = s := by
  intro fuel
  induction fuel with
  | zero => intro s _; rfl
  | succ fuel ih =>
    intro s h
    cases s with
    | nil => rfl
    | cons c rest =>
      have hc : c ≠ '<' := by
        intro hEq; exact h (hEq ▸ List.mem_cons_self c rest)
      have hrest : '<' ∉ rest := fun hx => h (List.mem_cons_of_mem c hx)
      show (if c = '<' then _ else c :: stripTsF fuel rest) = c :: rest
      rw [if_neg hc, ih rest hrest]

theorem stripTs_of_no_lt (s : PyStr) (h : '<' ∉ s) : stripTs s = s :=
  stripTsF_of_no_lt s.length s h

/-- The head of a collapse: space runs collapse to `' '`, other heads are
kept. -/
theorem collapseWs_head : ∀ (r : PyStr) (c : Char),
    ∃ t, collapseWs (c :: r) = (if isPySpace c then ' ' else c) :: t := by
  intro r
  induction r with
  | nil =>
    intro c
    refine ⟨[], ?_⟩
    show (if isPySpace c then [' '] else [c]) = _
    by_cases hc : isPySpace c
    · rw [if_pos hc, if_pos hc]
    · rw [if_neg hc, if_neg hc]
  | cons c2 rest ih =>
    intro c
    show ∃ t, (if isPySpace c ∧ isPySpace c2 then collapseWs (c2 :: rest)
      else (if isPySpace c then ' ' else c) :: collapseWs (c2 :: rest)) = _
    by_cases h : isPySpace c ∧ isPySpace c2
    · rw [if_pos h]
      obtain ⟨t, ht⟩ := ih c2
      refine ⟨t, ?_⟩
      rw [ht, if_pos h.2, if_pos h.1]
    · exact ⟨collapseWs (c2 :: rest), by rw [if_neg h]⟩

/-- The output of `collapseWs` is collapsed. -/
theorem collapsed_collapseWs : ∀ s : PyStr, Collapsed (collapseWs s) := by
  intro s
  induction s with
  | nil => exact ⟨List.chain'_nil, by intro c hc; cases hc⟩
  | cons c rest ih =>
    cases rest with
    | nil =>
      constructor
      · show List.Chain' noWsPair (if isPySpace c then [' '] else [c])
        by_cases hc : isPySpace c
        · rw [if_pos hc]; exact List.chain'_singleton _
        · rw [if_neg hc]; exact List.chain'_singleton _
      · intro x hx hxs
        by_cases hc : isPySpace c
        · rw [show collapseWs [c] = [' '] from by rw [collapseWs, if_pos hc]] at hx
          rcases List.mem_singleton.mp hx with rfl
          rfl
        · rw [show collapseWs [c] = [c] from by rw [collapseWs, if_neg hc]] at hx
          rcases List.mem_singleton.mp hx with rfl
          exact absurd hxs hc
    | cons c2 rest2 =>
      show Collapsed (if isPySpace c ∧ isPySpace c2 then collapseWs (c2 :: rest2)
        else (if isPySpace c then ' ' else c) :: collapseWs (c2 :: rest2))
      by_cases h : isPySpace c ∧ isPySpace c2
      · rw [if_pos h]; exact ih
      · rw [if_neg h]
        obtain ⟨t, ht⟩ := collapseWs_head rest2 c2
        constructor
        · rw [List.chain'_cons']
          refine ⟨?_, ih.1⟩
          intro y hy
          rw [ht] at hy
          simp only [List.head?_cons, Option.mem_def, Option.some.injEq] at hy
          subst hy
          by_cases hc2 : isPySpace c2
          · have hc : ¬ isPySpace c = true := fun hcc => h ⟨hcc, hc2⟩
            left
            rw [if_neg hc]
            simpa using hc
          · right
            rw [if_neg hc2]
            simpa using hc2
        · intro x hx hxs
          rcases List.mem_cons.mp hx with rfl | hx
          · by_cases hc : isPySpace c
            · rw [if_pos hc]
            · rw [if_neg hc] at hxs ⊢
              exact absurd hxs (by simpa using hc)
          · exact ih.2 x hx hxs

/-- `collapseWs` fixes collapsed strings. -/
theorem collapseWs_of_collapsed : ∀ s : PyStr, Collapsed s → collapseWs s = s := by
  intro s
  induction s with
  | nil => intro _; rfl
  | cons c rest ih =>
    intro hs
    cases rest with
    | nil =>
      show (if isPySpace c then [' '] else [c]) = [c]
      by_cases hc : isPySpace c
      · rw [if_pos hc, hs.2 c (List.mem_cons_self c []) hc]
      · rw [if_neg hc]
    | cons c2 rest2 =>
      have hpair : noWsPair c c2 := (List.chain'_cons.mp hs.1).1
      have hnb : ¬ (isPySpace c ∧ isPySpace c2) := by
        intro hb
        rcases hpair with h | h
        · rw [hb.1] at h; cases h
        · rw [hb.2] at h; cases h
      show (if isPySpace c ∧ isPySpace c2 then collapseWs (c2 :: rest2)
        else (if isPySpace c then ' ' else c) :: collapseWs (c2 :: rest2)) = _
      rw [if_neg hnb]
      have htail : Collapsed (c2 :: rest2) :=
        ⟨(List.chain'_cons.mp hs.1).2, fun x hx => hs.2 x (List.mem_cons_of_mem c hx)⟩
      rw [ih htail]
      by_cases hc : isPySpace c
      · rw [if_pos hc, hs.2 c (List.mem_cons_self c _) hc]
      · rw [if_neg hc]

theorem dropWhile_idem (p : Char → Bool) :
    ∀ l : PyStr, List.dropWhile p (List.dropWhile p l) = List.dropWhile p l := by
  intro l
  induction l with
  | nil => rfl
  | cons c rest ih =>
    rw [List.dropWhile_cons]
    by_cases hc : p c
    · rw [if_pos hc]; exact ih
    · rw [if_neg hc, List.dropWhile_cons, if_neg hc]

theorem dropWhile_head_false {p : Char → Bool} :
    ∀ {l c t}, List.dropWhile p l = c :: t → p c = false := by
  intro l
  induction l with
  | nil => intro c t h; cases h
  | cons a rest ih =>
    intro c t h
    rw [List.dropWhile_cons] at h
    by_cases ha : p a
    · rw [if_pos ha] at h; exact ih h
    · rw [if_neg ha] at h
      rcases h with ⟨rfl, rfl⟩
      simpa using ha

/-- `pyStrip` only removes characters. -/
theorem mem_of_mem_pyStrip {s : PyStr} {x : Char} (hx : x ∈ pyStrip s) : x ∈ s := by
  unfold pyStrip at hx
  rw [List.mem_reverse] at hx
  have h1 := (List.dropWhile_sublist isPySpace).subset hx
  rw [List.mem_reverse] at h1
  exact (List.dropWhile_sublist isPySpace).subset h1

/-- Chains survive `dropWhile`. -/
theorem chain'_dropWhile {R : Char → Char → Prop} {p : Char → Bool} {l : PyStr}
    (h : List.Chain' R l) : List.Chain' R (List.dropWhile p l) := by
  obtain ⟨u, hu⟩ := List.dropWhile_suffix p (l := l)
  rw [← hu] at h
  exact h.right_of_append

/-- Symmetric chains survive `reverse`. -/
theorem chain'_reverse_noWsPair {l : PyStr} (h : List.Chain' noWsPair l) :
    List.Chain' noWsPair l.reverse := by
  rw [List.chain'_reverse]
  exact h.imp (fun _ _ hx => Or.symm hx)

/-- `pyStrip` preserves collapsedness. -/
theorem collapsed_pyStrip {s : PyStr} (h : Collapsed s) : Collapsed (pyStrip s) := by
  constructor
  · unfold pyStrip
    exact chain'_reverse_noWsPair (chain'_dropWhile (chain'_reverse_noWsPair
      (chain'_dropWhile h.1)))
  · intro c hc hcs
    exact h.2 c (mem_of_mem_pyStrip hc) hcs

/-- Stripping twice strips once. -/
theorem pyStrip_idem (w : PyStr) : pyStrip (pyStrip w) = pyStrip w := by
  have hb : pyStrip w =
      (List.dropWhile isPySpace (List.dropWhile isPySpace w).reverse).reverse := rfl
  have hF1 : List.dropWhile isPySpace (pyStrip w).reverse = (pyStrip w).reverse := by
    rw [hb, List.reverse_reverse, dropWhile_idem]
  have hF4 : List.dropWhile isPySpace (pyStrip w) = pyStrip w := by
    obtain ⟨u, hu⟩ := List.dropWhile_suffix isPySpace
      (l := (List.dropWhile isPySpace w).reverse)
    have ha : List.dropWhile isPySpace w = pyStrip w ++ u.reverse := by
      have h := congrArg List.reverse hu
      rw [List.reverse_append, List.reverse_reverse] at h
      rw [← h, hb]
    cases hy : pyStrip w with
    | nil => rfl
    | cons c t =>
      rw [hy] at ha
      have hfix : List.dropWhile isPySpace (List.dropWhile isPySpace w) =
          List.dropWhile isPySpace w := dropWhile_idem isPySpace w
      rw [ha] at hfix
      rw [List.cons_append, List.dropWhile_cons] at hfix
      by_cases hc : isPySpace c
      · rw [if_pos hc] at hfix
        have hlen := (List.dropWhile_sublist isPySpace
          (l := t ++ u.reverse)).length_le
        rw [hfix] at hlen
        simp only [List.length_cons] at hlen
        omega
      · rw [List.dropWhile_cons, if_neg hc]
  rw [show pyStrip (pyStrip w) =
    (List.dropWhile isPySpace (List.dropWhile isPySpace (pyStrip w)).reverse).reverse
    from rfl]
  rw [hF4, hF1, List.reverse_reverse]

/-- The cleaned transcript is a fixed point of `pyStrip` and of
`collapseWs`, and is collapsed. -/
theorem collapsed_clean (x : PyStr) : Collapsed (clean_autogen_transcript x) :=
  collapsed_pyStrip (collapsed_collapseWs (stripTs (stripTags x)))

theorem pyStrip_clean (x : PyStr) :
    pyStrip (clean_autogen_transcript x) = clean_autogen_transcript x :=
  pyStrip_idem (collapseWs (stripTs (stripTags x)))

/-- Claim C8 (amended): the Caption Normalizer is idempotent on every input
whose cleaned result contains no `<` character.  (Full idempotence fails:
removing caption tags can splice a new tag together, see
`clean_autogen_transcript_not_idempotent`.) -/
theorem clean_autogen_transcript_idempotent_of_no_lt (x : PyStr)
    (h : '<' ∉ clean_autogen_transcript x) :
    clean_autogen_transcript (clean_autogen_transcript x) = clean_autogen_transcript x := by
  have h1 : clean_autogen_transcript (clean_autogen_transcript x) =
      pyStrip (collapseWs (stripTs (stripTags (clean_autogen_transcript x)))) := rfl
  rw [h1, stripTags_of_no_lt _ h, stripTs_of_no_lt _ h,
    collapseWs_of_collapsed _ (collapsed_clean x), pyStrip_clean]

/-- Claim C8, counterexample: the Caption Normalizer is not idempotent as
claimed — removing the inner `<c>` of `"<c<c>>"` splices together a new
`<c>`, which a second pass then removes. -/
theorem clean_autogen_transcript_not_idempotent :
    clean_autogen_transcript (clean_autogen_transcript "<c<c>>".data) ≠
      clean_autogen_transcript "<c<c>>".data := by decide

theorem clean_autogen_transcript_idempotent_witness :
    '<' ∉ clean_autogen_transcript "Hello <00:00:01.000><c> world</c>  \n foo".data ∧
    clean_autogen_transcript
        (clean_autogen_transcript "Hello <00:00:01.000><c> world</c>  \n foo".data) =
      clean_autogen_transcript "Hello <00:00:01.000><c> world</c>  \n foo".data :=
  ⟨by decide, clean_autogen_transcript_idempotent_of_no_lt _ (by decide)⟩

/-- Claim C9: the normalization pipeline fails with the
insufficient-content error exactly when the cleaned result is empty or
shorter than the 50-character minimum, and otherwise returns the cleaned
text unchanged. -/
theorem get_video_transcript_gate (raw_text : PyStr) :
    get_video_transcript raw_text =
      if clean_autogen_transcript raw_text = [] ∨
          (clean_autogen_transcript raw_text).length < 50 then
        Except.error "Could not retrieve transcript: Extracted transcript is too short or empty".data
      else
        Except.ok (clean_autogen_transcript raw_text) := by
  unfold get_video_transcript
  simp only [pyStrip_clean]

/-- With an always-succeeding capability, the map phase issues one prompt
per chunk, in chunk order, and collects the responses in that order. -/
theorem mapPhase_ok (cap : Cap) (resp : Nat → PyStr → PyStr)
    (hcap : ∀ i q, cap i q = Except.ok (resp i q)) :
    ∀ (chunks : List PyStr) (i : Nat),
      mapPhase cap chunks i =
        (Except.ok (mapResp resp chunks i), chunks.map chunkPrompt) := by
  intro chunks
  induction chunks with
  | nil => intro i; rfl
  | cons chunk rest ih =>
    intro i
    simp only [mapPhase, hcap i (chunkPrompt chunk), ih (i + 1)]
    rfl

/-- A successful map phase visited every chunk: its trace is one map
prompt per chunk, in chunk order. -/
theorem mapPhase_ok_trace (cap : Cap) :
    ∀ (chunks : List PyStr) (i : Nat) (l : List PyStr),
      (mapPhase cap chunks i).1 = Except.ok l →
      mapPhase cap chunks i = (Except.ok l, chunks.map chunkPrompt) := by
  intro chunks
  induction chunks with
  | nil =>
    intro i l h
    simp only [mapPhase] at h ⊢
    obtain rfl : l = [] := by injection h with h'; exact h'.symm
    rfl
  | cons chunk rest ih =>
    intro i l h
    cases hc : cap i (chunkPrompt chunk) with
    | error e =>
      simp only [mapPhase, hc] at h
      exact Except.noConfusion h
    | ok s =>
      simp only [mapPhase, hc] at h ⊢
      cases hr : (mapPhase cap rest (i + 1)).1 with
      | error e => rw [hr] at h; simp [Except.map] at h
      | ok l' =>
        rw [hr] at h
        simp only [Except.map, Except.ok.injEq] at h
        rcases h with rfl
        rw [show (mapPhase cap rest (i + 1)).2 = rest.map chunkPrompt from
          congrArg Prod.snd (ih (i + 1) l' hr)]
        simp [Except.map]

/-- If map call `k` (0-based, at overall index `i + k`) fails after calls
`i..i+k-1` succeeded, the map phase stops there: the error carries the
1-based chunk index, and the trace covers chunks `0..k` only. -/
theorem mapPhase_fail (cap : Cap) (resp : Nat → PyStr) (e : PyStr) :
    ∀ (chunks : List PyStr) (i k : Nat), k < chunks.length →
      (∀ j, j < k → cap (i + j) (chunkPrompt (chunks.getD j [])) = Except.ok (resp (i + j))) →
      cap (i + k) (chunkPrompt (chunks.getD k [])) = Except.error e →
      mapPhase cap chunks i =
        (Except.error (SummErr.chunkError (i + k + 1) e),
          (chunks.take (k + 1)).map chunkPrompt) := by
  intro chunks
  induction chunks with
  | nil => intro i k hk; exact absurd hk (by simp)
  | cons chunk rest ih =>
    intro i k hk hok hfail
    cases k with
    | zero =>
      simp only [List.getD_cons_zero, Nat.add_zero] at hfail
      simp [mapPhase, hfail]
    | succ k' =>
      have hhd : cap i (chunkPrompt chunk) = Except.ok (resp i) := by
        have h := hok 0 (by omega)
        simpa using h
      have hok' : ∀ j, j < k' →
          cap (i + 1 + j) (chunkPrompt (rest.getD j [])) = Except.ok (resp (i + 1 + j)) := by
        intro j hj
        have h := hok (j + 1) (by omega)
        rw [show i + (j + 1) = i + 1 + j from by omega] at h
        simpa using h
      have hfail' : cap (i + 1 + k') (chunkPrompt (rest.getD k' [])) = Except.error e := by
        rw [show i + 1 + k' = i + (k' + 1) from by omega]
        simpa using hfail
      have hk' : k' < rest.length := by simpa using hk
      simp only [mapPhase, hhd, ih (i + 1) k' hk' hok' hfail']
      rw [show i + 1 + k' + 1 = i + (k' + 1) + 1 from by omega]
      simp [Except.map, List.take_succ_cons]

/-- Every style of the closed set has a short-path prompt. -/
theorem prompts_of_mem {s : PyStr} (hs : s ∈ styleList) (t : PyStr) :
    ∃ q, prompts s t = some q := by
  simp only [styleList, List.mem_cons, List.not_mem_nil, or_false] at hs
  rcases hs with rfl | rfl | rfl | rfl
  · exact ⟨_, rfl⟩
  · exact ⟨_, rfl⟩
  · exact ⟨_, rfl⟩
  · exact ⟨_, rfl⟩

/-- Every style of the closed set has a reduce prompt. -/
theorem final_prompts_of_mem {s : PyStr} (hs : s ∈ styleList) (c : PyStr) :
    ∃ q, final_prompts s c = some q := by
  simp only [styleList, List.mem_cons, List.not_mem_nil, or_false] at hs
  rcases hs with rfl | rfl | rfl | rfl
  · exact ⟨_, rfl⟩
  · exact ⟨_, rfl⟩
  · exact ⟨_, rfl⟩
  · exact ⟨_, rfl⟩

/-- A style outside the closed set has no short-path prompt (`KeyError`). -/
theorem prompts_of_not_mem {s : PyStr} (hs : s ∉ styleList) (t : PyStr) :
    prompts s t = none := by
  simp only [styleList, List.mem_cons, List.not_mem_nil, or_false, not_or] at hs
  obtain ⟨h1, h2, h3, h4⟩ := hs
  unfold prompts
  rw [if_neg h1, if_neg h2, if_neg h3, if_neg h4]

/-- A style outside the closed set has no reduce prompt (`KeyError`). -/
theorem final_prompts_of_not_mem {s : PyStr} (hs : s ∉ styleList) (c : PyStr) :
    final_prompts s c = none := by
  simp only [styleList, List.mem_cons, List.not_mem_nil, or_false, not_or] at hs
  obtain ⟨h1, h2, h3, h4⟩ := hs
  unfold final_prompts
  rw [if_neg h1, if_neg h2, if_neg h3, if_neg h4]

/-- A blank-line join with one non-empty member is non-empty. -/
theorem joinBlank_ne_nil : ∀ {xs : List PyStr} {x : PyStr}, x ∈ xs → x ≠ [] →
    joinBlank xs ≠ [] := by
  intro xs x hx hne
  cases xs with
  | nil => cases hx
  | cons w ws =>
    cases ws with
    | nil =>
      rcases List.mem_singleton.mp hx with rfl
      simpa [joinBlank] using hne
    | cons y ys =>
      show w ++ '\n' :: '\n' :: joinBlank (y :: ys) ≠ []
      cases w <;> simp

/-- Claim C1: for text of length at most the 3000-character oversized
threshold and any style of the closed set, the Orchestrator issues exactly
one capability call — the style-specific direct prompt — and returns that
call's output unchanged: no partitioning, no Partial Summaries, no reduce
step (the trace is the single direct prompt). -/
theorem summarize_short_path_identity (cap : Cap) (text s p r : PyStr)
    (hlen : text.length ≤ 3000) (hs : s ∈ styleList)
    (hp : prompts s text = some p) (hr : cap 0 p = Except.ok r) :
    summarize_with_groq cap text s = (Except.ok r, [p]) := by
  unfold summarize_with_groq
  rw [if_neg (by omega)]
  simp only [hp, hr]

theorem summarize_short_path_identity_witness :
    ("hello".data : PyStr).length ≤ 3000 ∧
    summarize_with_groq (fun _ _ => Except.ok "S".data) "hello".data "general".data =
      (Except.ok "S".data,
        ["Please provide a clear and concise summary of the following video transcript:\n\nhello".data]) :=
  ⟨by decide,
    summarize_short_path_identity (fun _ _ => Except.ok "S".data) "hello".data
      "general".data
      "Please provide a clear and concise summary of the following video transcript:\n\nhello".data
      "S".data (by decide) (by decide) (by decide) rfl⟩

/-- Claim C2: for oversized text whose partition has N segments, with an
always-succeeding capability and a style of the closed set, the
Orchestrator issues exactly the N map prompts in segment order followed by
exactly one reduce prompt, and the reduce input wraps the N Partial
Summaries joined with the blank-line separator, in segment order. -/
theorem summarize_map_reduce_sequence (cap : Cap) (resp : Nat → PyStr → PyStr)
    (text s fp : PyStr) (hlen : 3000 < text.length) (hs : s ∈ styleList)
    (hcap : ∀ i q, cap i q = Except.ok (resp i q))
    (hp : final_prompts s (joinBlank (mapResp resp (chunk_text text 2500) 0)) = some fp) :
    summarize_with_groq cap text s =
      (Except.ok (resp (chunk_text text 2500).length fp),
        (chunk_text text 2500).map chunkPrompt ++ [fp]) := by
  unfold summarize_with_groq
  rw [if_pos hlen]
  simp only [mapPhase_ok cap resp hcap, hp, hcap]

/-- The packing loop on a single word yields that word as the one chunk,
whatever the bound. -/
theorem chunkGo_single (maxChars : Nat) (w : PyStr) :
    chunkGo maxChars [w] [] 0 = [w] := by
  show (if maxChars < 0 + (w.length + 1) ∧ ([] : List PyStr) ≠ [] then
      joinSp [] :: chunkGo maxChars [] [w] (w.length + 1)
    else chunkGo maxChars [] ([] ++ [w]) (0 + (w.length + 1))) = [w]
  rw [if_neg (fun hc => hc.2 rfl)]
  show (if ([w] : List PyStr).isEmpty then [] else [joinSp [w]]) = [w]
  rfl

/-- A text that is a single word is its own single chunk. -/
theorem chunk_text_single (text : PyStr) (maxChars : Nat) (h : pySplit text = [text]) :
    chunk_text text maxChars = [text] := by
  unfold chunk_text
  rw [h]
  exact chunkGo_single maxChars text

/-- The packing loop on two words that together overflow the bound yields
two chunks, one word each. -/
theorem chunkGo_two (maxChars : Nat) (w1 w2 : PyStr)
    (hover : maxChars < w1.length + 1 + (w2.length + 1)) :
    chunkGo maxChars [w1, w2] [] 0 = [w1, w2] := by
  show (if maxChars < 0 + (w1.length + 1) ∧ ([] : List PyStr) ≠ [] then
      joinSp [] :: chunkGo maxChars [w2] [w1] (w1.length + 1)
    else chunkGo maxChars [w2] ([] ++ [w1]) (0 + (w1.length + 1))) = [w1, w2]
  rw [if_neg (fun hc => hc.2 rfl)]
  show (if maxChars < 0 + (w1.length + 1) + (w2.length + 1) ∧ ([] ++ [w1] : List PyStr) ≠ [] then
      joinSp ([] ++ [w1]) :: chunkGo maxChars [] [w2] (w2.length + 1)
    else chunkGo maxChars [] (([] ++ [w1]) ++ [w2]) (0 + (w1.length + 1) + (w2.length + 1)))
    = [w1, w2]
  rw [if_pos ⟨by omega, by simp⟩]
  show w1 :: (if ([w2] : List PyStr).isEmpty then [] else [joinSp [w2]]) = [w1, w2]
  rfl

/-- Two whole words around one space split into those two words. -/
theorem pySplit_pair {w1 w2 : PyStr} (h1 : pySplit w1 = [w1]) (h2 : pySplit w2 = [w2]) :
    pySplit (w1 ++ ' ' :: w2) = [w1, w2] := by
  show splitWAux (w1 ++ ' ' :: w2) [] = [w1, w2]
  rw [splitWAux_append_space w2 w1 []]
  show pySplit w1 ++ pySplit w2 = [w1, w2]
  rw [h1, h2]
  rfl

/-- An all-whitespace text has no words. -/
theorem pySplit_all_space : ∀ s : PyStr, (∀ c ∈ s, isPySpace c = true) → pySplit s = [] := by
  intro s
  induction s with
  | nil => intro _; rfl
  | cons c rest ih =>
    intro h
    have hc : isPySpace c = true := h c (List.mem_cons_self c rest)
    show (if isPySpace c then
        (if ([] : PyStr).isEmpty then [] else [([] : PyStr)]) ++ splitWAux rest []
      else splitWAux rest ([] ++ [c])) = []
    rw [if_pos hc]
    show splitWAux rest [] = []
    exact ih (fun x hx => h x (List.mem_cons_of_mem c hx))

theorem summarize_map_reduce_sequence_witness :
    3000 < (List.replicate 3001 'a' : PyStr).length ∧
    summarize_with_groq (fun _ _ => Except.ok "S".data) (List.replicate 3001 'a')
        "general".data =
      (Except.ok ((fun (_ : Nat) (_ : PyStr) => "S".data)
          (chunk_text (List.replicate 3001 'a') 2500).length
          ("Please create a cohesive summary from these section summaries of a video:\n\n".data ++ "S".data)),
        (chunk_text (List.replicate 3001 'a') 2500).map chunkPrompt ++
          ["Please create a cohesive summary from these section summaries of a video:\n\n".data ++ "S".data]) := by
  have hlen3001 : (List.replicate 3001 'a' : PyStr).length = 3001 :=
    List.length_replicate 3001 'a'
  have hne : (List.replicate 3001 'a' : PyStr) ≠ [] := by
    intro h
    rw [h] at hlen3001
    exact absurd hlen3001 (by decide)
  have hgt : 3000 < (List.replicate 3001 'a' : PyStr).length := by
    rw [hlen3001]
    decide
  have hw : pySplit (List.replicate 3001 'a') = [List.replicate 3001 'a'] :=
    pySplit_word hne (by intro c hc; rw [List.eq_of_mem_replicate hc]; rfl)
  refine ⟨hgt, ?_⟩
  exact summarize_map_reduce_sequence (fun _ _ => Except.ok "S".data)
    (fun _ _ => "S".data) (List.replicate 3001 'a') "general".data
    ("Please create a cohesive summary from these section summaries of a video:\n\n".data ++ "S".data)
    hgt (by decide) (fun _ _ => rfl)
    (by rw [chunk_text_single _ 2500 hw]; rfl)

/-- Claim C3 (amended): for oversized text, when the whole map phase
succeeds and the final reduce call fails, the Orchestrator does not fail —
it returns the blank-line join of the Partial Summaries (after issuing the
N map calls and the one failed reduce call); that degraded result is
non-empty whenever at least one Partial Summary is non-empty.  (The
unconditional non-emptiness of the original claim fails when the partition
is empty, see `summarize_reduce_degradation_cex`.) -/
theorem summarize_reduce_degradation (cap : Cap) (text s fp e : PyStr)
    (partials : List PyStr) (hlen : 3000 < text.length)
    (hmap : (mapPhase cap (chunk_text text 2500) 0).1 = Except.ok partials)
    (hp : final_prompts s (joinBlank partials) = some fp)
    (hfail : cap (chunk_text text 2500).length fp = Except.error e) :
    summarize_with_groq cap text s =
      (Except.ok (joinBlank partials), (chunk_text text 2500).map chunkPrompt ++ [fp]) ∧
    ((∃ x ∈ partials, x ≠ []) → joinBlank partials ≠ []) := by
  constructor
  · have hfull := mapPhase_ok_trace cap (chunk_text text 2500) 0 partials hmap
    unfold summarize_with_groq
    rw [if_pos hlen]
    simp only [hfull, hp, hfail]
  · rintro ⟨x, hx, hxne⟩
    exact joinBlank_ne_nil hx hxne

/-- Claim C3, counterexample: an oversized input of 3001 spaces partitions
into zero segments; all (zero) map calls succeed, the reduce call fails,
and the Orchestrator returns the empty string — the degraded result is NOT
always non-empty. -/
theorem summarize_reduce_degradation_cex :
    summarize_with_groq (fun _ _ => Except.error "boom".data)
        (List.replicate 3001 ' ') "general".data =
      (Except.ok [],
        ["Please create a cohesive summary from these section summaries of a video:\n\n".data]) := by
  have hsp : pySplit (List.replicate 3001 ' ') = [] :=
    pySplit_all_space _ (by intro c hc; rw [List.eq_of_mem_replicate hc]; rfl)
  have hct : chunk_text (List.replicate 3001 ' ') 2500 = [] := by
    unfold chunk_text
    rw [hsp]
    rfl
  have hlen3001 : (List.replicate 3001 ' ' : PyStr).length = 3001 :=
    List.length_replicate 3001 ' '
  unfold summarize_with_groq
  rw [if_pos (by rw [hlen3001]; decide)]
  simp only [hct]
  rfl

theorem summarize_reduce_degradation_witness :
    summarize_with_groq (fun i _ => if i = 0 then Except.ok "sum".data else Except.error "boom".data)
        (List.replicate 3001 'a') "general".data =
      (Except.ok (joinBlank ["sum".data]),
        (chunk_text (List.replicate 3001 'a') 2500).map chunkPrompt ++
          ["Please create a cohesive summary from these section summaries of a video:\n\n".data ++
            joinBlank ["sum".data]]) ∧
    ((∃ x ∈ (["sum".data] : List PyStr), x ≠ []) → joinBlank ["sum".data] ≠ []) := by
  have hlen3001 : (List.replicate 3001 'a' : PyStr).length = 3001 :=
    List.length_replicate 3001 'a'
  have hne : (List.replicate 3001 'a' : PyStr) ≠ [] := by
    intro h
    rw [h] at hlen3001
    exact absurd hlen3001 (by decide)
  have hw : pySplit (List.replicate 3001 'a') = [List.replicate 3001 'a'] :=
    pySplit_word hne (by intro c hc; rw [List.eq_of_mem_replicate hc]; rfl)
  have hct : chunk_text (List.replicate 3001 'a') 2500 = [List.replicate 3001 'a'] :=
    chunk_text_single _ 2500 hw
  exact summarize_reduce_degradation
    (fun i _ => if i = 0 then Except.ok "sum".data else Except.error "boom".data)
    (List.replicate 3001 'a') "general".data
    ("Please create a cohesive summary from these section summaries of a video:\n\n".data ++
      joinBlank ["sum".data])
    "boom".data ["sum".data]
    (by rw [hlen3001]; decide)
    (by rw [hct]; rfl)
    rfl
    (by rw [hct]; rfl)

/-- Claim C4: for oversized text, if map call k (1-indexed: here the
failing 0-based chunk index is `k`, reported as `k + 1`) fails after calls
1..k succeeded, the Orchestrator fails immediately with a
SummarizationError carrying the 1-based index of the failing chunk, and no
capability call for any later segment is issued: the trace stops at the
failing chunk's prompt. -/
theorem summarize_map_failure (cap : Cap) (resp : Nat → PyStr) (text s e : PyStr) (k : Nat)
    (hlen : 3000 < text.length) (hk : k < (chunk_text text 2500).length)
    (hok : ∀ j, j < k →
      cap j (chunkPrompt ((chunk_text text 2500).getD j [])) = Except.ok (resp j))
    (hfail : cap k (chunkPrompt ((chunk_text text 2500).getD k [])) = Except.error e) :
    summarize_with_groq cap text s =
      (Except.error (SummErr.chunkError (k + 1) e),
        ((chunk_text text 2500).take (k + 1)).map chunkPrompt) := by
  have hok' : ∀ j, j < k →
      cap (0 + j) (chunkPrompt ((chunk_text text 2500).getD j [])) = Except.ok (resp (0 + j)) := by
    intro j hj
    rw [Nat.zero_add]
    exact hok j hj
  have hfail' : cap (0 + k) (chunkPrompt ((chunk_text text 2500).getD k [])) = Except.error e := by
    rw [Nat.zero_add]
    exact hfail
  have hmp := mapPhase_fail cap resp e (chunk_text text 2500) 0 k hk hok' hfail'
  rw [Nat.zero_add] at hmp
  unfold summarize_with_groq
  rw [if_pos hlen]
  simp only [hmp]

theorem summarize_map_failure_witness :
    3000 < (List.replicate 1600 'a' ++ ' ' :: List.replicate 1600 'b' : PyStr).length ∧
    summarize_with_groq (fun i _ => if i = 0 then Except.ok "s0".data else Except.error "boom".data)
        (List.replicate 1600 'a' ++ ' ' :: List.replicate 1600 'b') "general".data =
      (Except.error (SummErr.chunkError 2 "boom".data),
        ((chunk_text (List.replicate 1600 'a' ++ ' ' :: List.replicate 1600 'b') 2500).take 2).map
          chunkPrompt) := by
  have hla : (List.replicate 1600 'a' : PyStr).length = 1600 := List.length_replicate 1600 'a'
  have hlb : (List.replicate 1600 'b' : PyStr).length = 1600 := List.length_replicate 1600 'b'
  have hnea : (List.replicate 1600 'a' : PyStr) ≠ [] := by
    intro h
    rw [h] at hla
    exact absurd hla (by decide)
  have hneb : (List.replicate 1600 'b' : PyStr) ≠ [] := by
    intro h
    rw [h] at hlb
    exact absurd hlb (by decide)
  have hwa : pySplit (List.replicate 1600 'a') = [List.replicate 1600 'a'] :=
    pySplit_word hnea (by intro c hc; rw [List.eq_of_mem_replicate hc]; rfl)
  have hwb : pySplit (List.replicate 1600 'b') = [List.replicate 1600 'b'] :=
    pySplit_word hneb (by intro c hc; rw [List.eq_of_mem_replicate hc]; rfl)
  have hlen : (List.replicate 1600 'a' ++ ' ' :: List.replicate 1600 'b' : PyStr).length = 3201 := by
    rw [List.length_append, List.length_cons, hla, hlb]
  have hct : chunk_text (List.replicate 1600 'a' ++ ' ' :: List.replicate 1600 'b') 2500 =
      [List.replicate 1600 'a', List.replicate 1600 'b'] := by
    unfold chunk_text
    rw [pySplit_pair hwa hwb]
    exact chunkGo_two 2500 _ _ (by rw [hla, hlb]; decide)
  refine ⟨by rw [hlen]; decide, ?_⟩
  exact summarize_map_failure
    (fun i _ => if i = 0 then Except.ok "s0".data else Except.error "boom".data)
    (fun _ => "s0".data)
    (List.replicate 1600 'a' ++ ' ' :: List.replicate 1600 'b') "general".data "boom".data 1
    (by rw [hlen]; decide)
    (by rw [hct]; decide)
    (by
      intro j hj
      have hj0 : j = 0 := by omega
      subst hj0
      rfl)
    (by rw [hct]; rfl)

/-- Shape of the Orchestrator's call trace for a style of the closed set:
on the oversized path, the trace is the map-phase trace, extended by one
reduce prompt exactly when the map phase succeeded; on the short path it
is one direct prompt.  Everything before the last call is independent of
the style. -/
theorem summarize_trace_shape (cap : Cap) (text s : PyStr) (hs : s ∈ styleList) :
    (3000 < text.length ∧
      ((∃ e, (mapPhase cap (chunk_text text 2500) 0).1 = Except.error e ∧
          (summarize_with_groq cap text s).2 = (mapPhase cap (chunk_text text 2500) 0).2) ∨
        (∃ partials fp, (mapPhase cap (chunk_text text 2500) 0).1 = Except.ok partials ∧
          final_prompts s (joinBlank partials) = some fp ∧
          (summarize_with_groq cap text s).2 =
            (mapPhase cap (chunk_text text 2500) 0).2 ++ [fp]))) ∨
    (text.length ≤ 3000 ∧ ∃ p, prompts s text = some p ∧
      (summarize_with_groq cap text s).2 = [p]) := by
  by_cases hlen : 3000 < text.length
  · left
    refine ⟨hlen, ?_⟩
    cases hmr : (mapPhase cap (chunk_text text 2500) 0).1 with
    | error e =>
      left
      refine ⟨e, rfl, ?_⟩
      unfold summarize_with_groq
      rw [if_pos hlen]
      simp only [hmr]
    | ok partials =>
      right
      obtain ⟨fp, hfp⟩ := final_prompts_of_mem hs (joinBlank partials)
      refine ⟨partials, fp, rfl, hfp, ?_⟩
      unfold summarize_with_groq
      rw [if_pos hlen]
      cases hcap : cap (chunk_text text 2500).length fp with
      | ok r => simp only [hmr, hfp, hcap]
      | error e => simp only [hmr, hfp, hcap]
  · right
    refine ⟨by omega, ?_⟩
    obtain ⟨p, hp⟩ := prompts_of_mem hs text
    refine ⟨p, hp, ?_⟩
    unfold summarize_with_groq
    rw [if_neg hlen]
    cases hcap : cap 0 p with
    | ok r => simp only [hp, hcap]
    | error e => simp only [hp, hcap]

/-- Claim C7: for any two styles of the closed set, the Orchestrator
executes structurally identical call sequences — the two traces have the
same number of calls and agree on every call but the last (the map-phase
prompts — which carry the chunk contents and are style-agnostic — are
identical across the runs; only the final direct or reduce prompt's
wording depends on the style). -/
theorem summarize_style_noninterference (cap : Cap) (text s1 s2 : PyStr)
    (h1 : s1 ∈ styleList) (h2 : s2 ∈ styleList) :
    (summarize_with_groq cap text s1).2.length = (summarize_with_groq cap text s2).2.length ∧
    (summarize_with_groq cap text s1).2.dropLast = (summarize_with_groq cap text s2).2.dropLast := by
  rcases summarize_trace_shape cap text s1 h1 with ⟨hlen, hsh1⟩ | ⟨hlen, p1, hp1, ht1⟩ <;>
    rcases summarize_trace_shape cap text s2 h2 with ⟨hlen2, hsh2⟩ | ⟨hlen2, p2, hp2, ht2⟩
  · rcases hsh1 with ⟨e1, hm1, ht1⟩ | ⟨l1, f1, hm1, hf1, ht1⟩ <;>
      rcases hsh2 with ⟨e2, hm2, ht2⟩ | ⟨l2, f2, hm2, hf2, ht2⟩
    · rw [ht1, ht2]
      exact ⟨rfl, rfl⟩
    · rw [hm1] at hm2
      exact Except.noConfusion hm2
    · rw [hm1] at hm2
      exact Except.noConfusion hm2
    · rw [ht1, ht2]
      constructor
      · simp
      · simp
  · omega
  · omega
  · rw [ht1, ht2]
    exact ⟨rfl, rfl⟩

theorem summarize_style_noninterference_witness :
    (summarize_with_groq (fun _ _ => Except.ok "S".data) "hi".data "general".data).2.length =
      (summarize_with_groq (fun _ _ => Except.ok "S".data) "hi".data "bullet_points".data).2.length ∧
    (summarize_with_groq (fun _ _ => Except.ok "S".data) "hi".data "general".data).2.dropLast =
      (summarize_with_groq (fun _ _ => Except.ok "S".data) "hi".data "bullet_points".data).2.dropLast :=
  summarize_style_noninterference (fun _ _ => Except.ok "S".data) "hi".data
    "general".data "bullet_points".data (by decide) (by decide)

/-- Claim C10: for a style outside the closed set the two paths diverge.
On the short path the style lookup failure surfaces as a
SummarizationError (the wrapped `KeyError`) with no capability call
issued; on the oversized path, once all map calls succeeded, the same
lookup failure inside the reduce-phase `try` is swallowed and the
blank-line join of the chunk summaries is returned as a degraded result
with no error and no reduce call issued. -/
theorem summarize_invalid_style_asymmetry (cap : Cap) (tshort tlong s : PyStr)
    (partials : List PyStr) (hs : s ∉ styleList)
    (hshort : tshort.length ≤ 3000) (hlong : 3000 < tlong.length)
    (hmap : (mapPhase cap (chunk_text tlong 2500) 0).1 = Except.ok partials) :
    summarize_with_groq cap tshort s =
      (Except.error (SummErr.generalError
        ("Error generating summary: '".data ++ s ++ "'".data)), []) ∧
    summarize_with_groq cap tlong s =
      (Except.ok (joinBlank partials), (chunk_text tlong 2500).map chunkPrompt) := by
  constructor
  · unfold summarize_with_groq
    rw [if_neg (by omega)]
    simp only [prompts_of_not_mem hs tshort]
  · have hfull := mapPhase_ok_trace cap (chunk_text tlong 2500) 0 partials hmap
    unfold summarize_with_groq
    rw [if_pos hlong]
    simp only [hfull, final_prompts_of_not_mem hs (joinBlank partials)]

theorem summarize_invalid_style_asymmetry_witness :
    summarize_with_groq (fun _ _ => Except.ok "S".data) "hi".data "fancy".data =
      (Except.error (SummErr.generalError
        ("Error generating summary: '".data ++ "fancy".data ++ "'".data)), []) ∧
    summarize_with_groq (fun _ _ => Except.ok "S".data) (List.replicate 3001 'a')
        "fancy".data =
      (Except.ok (joinBlank ["S".data]),
        (chunk_text (List.replicate 3001 'a') 2500).map chunkPrompt) := by
  have hlen3001 : (List.replicate 3001 'a' : PyStr).length = 3001 :=
    List.length_replicate 3001 'a'
  have hne : (List.replicate 3001 'a' : PyStr) ≠ [] := by
    intro h
    rw [h] at hlen3001
    exact absurd hlen3001 (by decide)
  have hw : pySplit (List.replicate 3001 'a') = [List.replicate 3001 'a'] :=
    pySplit_word hne (by intro c hc; rw [List.eq_of_mem_replicate hc]; rfl)
  exact summarize_invalid_style_asymmetry (fun _ _ => Except.ok "S".data)
    "hi".data (List.replicate 3001 'a') "fancy".data ["S".data]
    (by decide) (by decide) (by rw [hlen3001]; decide)
    (by rw [chunk_text_single _ 2500 hw]; rfl)
